import Mathlib

/-!
# goreload: a verification development of `main.go`

The daemon watches a Go workspace, rebuilds on every write to a `.go` file and
restarts the program it launched.  This file embeds the functions of `main.go`
that carry the logic (`getExcludeSlice`, `watchRecursively`, `handleWrite`,
the background launch goroutine, `handleEvent`, `handleSignal`) and states
their properties.

Conventions of the embedding.

* Go strings are Lean `String`s; the standard-library string functions the
  program calls (`strings.Trim`, `strings.Fields`, `strings.HasSuffix`) are
  written over the character list of the string.
* `filepath.Separator` is the POSIX separator (the program calls
  `syscall.Kill` and sets `Setpgid`, so it only builds on POSIX systems).
* The filesystem is an explicit, finite table from paths to directory
  listings; `ioutil.ReadDir` is a lookup in it.
* System calls and process control are recorded as an ordered trace of
  `Effect`s.  Log and print statements are not recorded.
* The buffered channel `p.running` (capacity 1) is the number of values it
  holds; a channel operation that cannot proceed yields `none`.
-/

namespace Goreload

/-! ## Standard-library string functions used by the program -/

/-- The value of `filepath.Separator` on POSIX systems. -/
def Separator : Char := '/'

/-- The separator as a string: `string(filepath.Separator)`. -/
def sep : String := String.singleton Separator

/-- Go `unicode.IsSpace`: the Latin-1 spaces and the Unicode White_Space code points. -/
def isSpace (c : Char) : Bool :=
  c == ' ' || c == '\t' || c == '\n' || c.val == 0x0B || c.val == 0x0C || c == '\r'
    || c.val == 0x85 || c.val == 0xA0 || c.val == 0x1680
    || (0x2000 ≤ c.val && c.val ≤ 0x200A)
    || c.val == 0x2028 || c.val == 0x2029 || c.val == 0x202F || c.val == 0x205F
    || c.val == 0x3000

/-- Scanner of `strings.Fields`: `cur` is the field being read, the second
argument the unread input.  A space closes a non-empty field. -/
def fieldsGo : List Char → List Char → List (List Char)
  | cur, [] => if cur = [] then [] else [cur]
  | cur, c :: cs =>
    if isSpace c then
      (if cur = [] then fieldsGo [] cs else cur :: fieldsGo [] cs)
    else fieldsGo (cur ++ [c]) cs

/-- Go `strings.Fields`: the maximal runs of non-space characters, in order. -/
def Fields (s : String) : List String :=
  (fieldsGo [] s.data).map String.mk

/-- Go `strings.TrimLeft s cutset` on character lists. -/
def trimLeft (cutset : List Char) (l : List Char) : List Char :=
  l.dropWhile (fun c => cutset.contains c)

/-- Go `strings.TrimRight s cutset` on character lists. -/
def trimRight (cutset : List Char) (l : List Char) : List Char :=
  (l.reverse.dropWhile (fun c => cutset.contains c)).reverse

/-- Go `strings.Trim s cutset`: all leading and trailing characters of `cutset` removed. -/
def Trim (s cutset : String) : String :=
  String.mk (trimRight cutset.data (trimLeft cutset.data s.data))

/-- Go `strings.HasSuffix`. -/
def HasSuffix (s suffix : String) : Bool :=
  suffix.data.isSuffixOf s.data

/-! ## `getExcludeSlice` (main.go, lines 236-248) -/

/-- The function `getExcludeSlice`: trim blanks, split into fields, and append
`dir + Separator + field` to the result slice for each field in turn. -/
def getExcludeSlice (excludes dir : String) : List String :=
  let newExcludes := Trim excludes " "
  let tmpSlice := Fields newExcludes
  tmpSlice.foldl (fun eSlice exclude => eSlice ++ [dir ++ sep ++ exclude]) []

/-! ## The filesystem and `watchRecursively` (main.go, lines 78-108) -/

/-- The part of `os.FileInfo` the program reads: `Name()` and `IsDir()`. -/
structure FileInfo where
  Name : String
  IsDir : Bool
  deriving DecidableEq, Repr

/-- A finite filesystem: the paths whose listing succeeds, each with its
entries.  A path that is absent is one on which `ioutil.ReadDir` returns an
error (not a directory, permission denied, vanished). -/
abbrev FileSystem := List (String × List FileInfo)

/-- The call `ioutil.ReadDir dirname`: `none` stands for a non-nil error. -/
def ReadDir (fs : FileSystem) (dirname : String) : Option (List FileInfo) :=
  fs.lookup dirname

/-- The loop at the head of `watchRecursively` (lines 79-87): it returns
early exactly when `dirOrFile == excludeDir` for some entry of `ExcludeDirs`. -/
def isExcluded : List String → String → Bool
  | [], _ => false
  | excludeDir :: rest, dirOrFile =>
    if dirOrFile == excludeDir then true else isExcluded rest dirOrFile

/-- The loop over `finfoSlice` (lines 100-105): each entry that is a directory
is walked at `dirOrFile + Separator + Name`; `walk` is the recursive call.
The result is the `Watcher.Add` calls issued, in order. -/
def watchChildren (walk : String → Option (List String)) (dirOrFile : String) :
    List FileInfo → Option (List String)
  | [] => some []
  | finfo :: rest =>
    if finfo.IsDir then
      match walk (dirOrFile ++ sep ++ finfo.Name) with
      | none => none
      | some added =>
        match watchChildren walk dirOrFile rest with
        | none => none
        | some more => some (added ++ more)
    else watchChildren walk dirOrFile rest

/-- The method `watchRecursively`, returning the paths passed to
`p.Watcher.Add`, in call order.  The first argument bounds the recursion
depth; `none` means the bound was reached. -/
def watchRecursively (fs : FileSystem) (ExcludeDirs : List String) :
    Nat → String → Option (List String)
  | 0, _ => none
  | fuel + 1, dirOrFile =>
    if isExcluded ExcludeDirs dirOrFile then some []
    else
      match ReadDir fs dirOrFile with
      | none => some []
      | some finfoSlice =>
        match watchChildren (watchRecursively fs ExcludeDirs fuel) dirOrFile finfoSlice with
        | none => none
        | some added => some (dirOrFile :: added)

/-- The registration set of the notifier (`fsnotify.Watcher`, an external
library): the watched paths, each held once. -/
abbrev Watcher := List String

/-- The call `Watcher.Add name`: registering a watched path again changes nothing. -/
def Watcher.Add (w : Watcher) (name : String) : Watcher :=
  if name ∈ w then w else w ++ [name]

/-- The notifier after a sequence of `Watcher.Add` calls. -/
def registerAll (w : Watcher) (calls : List String) : Watcher :=
  calls.foldl Watcher.Add w

/-! ### Vocabulary of the path properties -/

/-- The path `path` lies under `entry`: it is `entry`, then the separator,
then further text. -/
def isDescendant (entry path : String) : Bool :=
  (entry.data ++ [Separator]).isPrefixOf path.data

/-- No name returned by a listing contains the path separator. -/
def NamesHaveNoSeparator (fs : FileSystem) : Prop :=
  ∀ kv ∈ fs, ∀ fi ∈ kv.2, Separator ∉ fi.Name.data

/-- Within one listing the names are pairwise distinct. -/
def SiblingsDistinct (fs : FileSystem) : Prop :=
  ∀ kv ∈ fs, (kv.2.map FileInfo.Name).Nodup

/-- The directories reachable from `root`: `root` itself, and every entry
marked as a directory in the listing of a reachable path. -/
inductive Reachable (fs : FileSystem) (root : String) : String → Prop
  | root : Reachable fs root root
  | child (dir : String) (entries : List FileInfo) (fi : FileInfo) :
      Reachable fs root dir → ReadDir fs dir = some entries → fi ∈ entries →
      fi.IsDir = true → Reachable fs root (dir ++ sep ++ fi.Name)

/-- The path is neither an exclusion entry nor under one. -/
def NotExcluded (ExcludeDirs : List String) (path : String) : Prop :=
  path ∉ ExcludeDirs ∧ ∀ e ∈ ExcludeDirs, isDescendant e path = false

/-! ## The daemon state and its effects -/

/-- The signals the program names. -/
inductive Signal
  | SIGTERM
  | SIGINT
  deriving DecidableEq, Repr

/-- The actions of the program on the operating system and on its channel,
as they appear in a trace. -/
inductive Effect
  /-- The call `syscall.Kill(pid, sig)`; a negative `pid` addresses the process group `-pid`. -/
  | Kill (pid : Int) (sig : Signal)
  /-- The call `exec.Command("bash", "-c", script).CombinedOutput()`. -/
  | CombinedOutput (script : String)
  /-- The statement `go func() { ... }()` for the command `bash -c script`. -/
  | Go (script : String)
  /-- The call `cmd.Start()` for the command `bash -c script`, in its own process group. -/
  | Start (script : String)
  /-- The statement `p.running <- 1`. -/
  | Send
  /-- The call `os.Exit(code)`. -/
  | Exit (code : Int)
  deriving DecidableEq, Repr

/-- The struct `Program`.  The field `running`, a channel of capacity 1, is
the number of values the channel holds. -/
structure Program where
  Name : String
  WorkSpace : String
  ExcludeDirs : List String
  Watcher : Goreload.Watcher
  buildCmdStr : String
  SubProccesPid : Int
  SubProccesRunCommand : String
  running : Nat
  deriving DecidableEq, Repr

/-- Capacity of the channel made by `make(chan int, 1)`. -/
def runningCap : Nat := 1

/-- The statement `p.running <- 1`: `none` when the channel is full, so that
the sender blocks. -/
def send (p : Program) : Option Program :=
  if p.running < runningCap then some { p with running := p.running + 1 } else none

/-- The statement `<-p.running`: `none` when the channel is empty, so that
the receiver blocks. -/
def recv (p : Program) : Option Program :=
  if 0 < p.running then some { p with running := p.running - 1 } else none

/-- Go `path.Base`. -/
def Base (path : String) : String :=
  if path = "" then "."
  else
    let stripped := path.data.reverse.dropWhile (fun c => c == '/')
    if stripped = [] then "/"
    else String.mk (stripped.takeWhile (fun c => c != '/')).reverse

/-- The function `New` (lines 202-234), for working directory `dir`;
`gomodExists` is the outcome of `os.Stat` on `dir/go.mod`, and `none` is the
exit of the process when the file is missing.  `excludes` and `run` are the
flag values. -/
def New (dir : String) (gomodExists : Bool) (excludes run : String) : Option Program :=
  if gomodExists then
    some
      { Name := Base dir
        WorkSpace := dir
        ExcludeDirs := getExcludeSlice excludes dir
        Watcher := []
        buildCmdStr := "go build -o " ++ Base dir ++ " *.go"
        SubProccesPid := 0
        SubProccesRunCommand := run
        running := 0 }
  else none

/-! ## The rebuild pipeline: `handleWrite` (lines 135-193) -/

/-- The method `handleWrite`, run by the router.  The result is the state
after the call and the trace of the call; `none` when the call blocks on the
channel.  The goroutine it starts is recorded as `Effect.Go`; its body is
`launchStart` followed, when the child exits, by `launchExit`. -/
def handleWrite (run : String) (p : Program) (file : String) :
    Option (Program × List Effect) :=
  if HasSuffix file ".go" then
    let killed :=
      if p.SubProccesPid ≠ 0 then [Effect.Kill (-p.SubProccesPid) Signal.SIGTERM] else []
    let built := [Effect.CombinedOutput p.buildCmdStr]
    if run ≠ "" then
      some (p, killed ++ built ++ [Effect.Go p.SubProccesRunCommand])
    else
      some (p, killed ++ built)
  else
    match send p with
    | none => none
    | some p1 => some (p1, [Effect.Send])

/-- The goroutine of `handleWrite` from `cmd.Start()` up to `cmd.Wait()`
(lines 170-178).  `started` is the outcome of `cmd.Start()`: `none` for an
error, otherwise the process identifier of the child. -/
def launchStart (p : Program) (started : Option Int) : Option (Program × List Effect) :=
  match started with
  | none => some (p, [Effect.Start p.SubProccesRunCommand])
  | some pid =>
    match send { p with SubProccesPid := pid } with
    | none => none
    | some p1 => some (p1, [Effect.Start p.SubProccesRunCommand, Effect.Send])

/-- The goroutine of `handleWrite` after `cmd.Wait()` has returned (line 182). -/
def launchExit (p : Program) : Program :=
  { p with SubProccesPid := 0 }

/-! ## The event router: `handleEvent` (lines 109-134) -/

/-- The operation of an `fsnotify.Event`, as far as the router tells them apart. -/
inductive Op
  | Create
  | Write
  | Remove
  | Other
  deriving DecidableEq, Repr

/-- The struct `fsnotify.Event`. -/
structure Event where
  Name : String
  Op : Op
  deriving DecidableEq, Repr

/-- One round of the loop of `handleEvent` on a received event.  For a Write
event the router calls `handleWrite` and then waits on `p.running`; the only
goroutine that can still send is the one `handleWrite` has just started, so it
runs up to `cmd.Wait()` before the wait is decided.  `none` means the router
never finishes the round. -/
def handleEvent (run : String) (fs : FileSystem) (p : Program) (event : Event)
    (started : Option Int) : Option (Program × List Effect) :=
  match event.Op with
  | Op.Remove => some ({ p with Watcher := p.Watcher.erase event.Name }, [])
  | Op.Create =>
    match watchRecursively fs p.ExcludeDirs (fs.length + 1) event.Name with
    | none => none
    | some adds => some ({ p with Watcher := registerAll p.Watcher adds }, [])
  | Op.Write =>
    match handleWrite run p event.Name with
    | none => none
    | some (p1, t1) =>
      let launched :=
        if Effect.Go p.SubProccesRunCommand ∈ t1 then launchStart p1 started
        else some (p1, [])
      match launched with
      | none => none
      | some (p2, t2) =>
        match recv p2 with
        | none => none
        | some p3 => some (p3, t1 ++ t2)
  | Op.Other => some (p, [])

/-- The router on a sequence of events, each with the outcome of the
`cmd.Start()` it may lead to. -/
def handleEvents (run : String) (fs : FileSystem) :
    Program → List (Event × Option Int) → Option (Program × List Effect)
  | p, [] => some (p, [])
  | p, (event, started) :: rest =>
    match handleEvent run fs p event started with
    | none => none
    | some (p1, t1) =>
      match handleEvents run fs p1 rest with
      | none => none
      | some (p2, t2) => some (p2, t1 ++ t2)

/-! ## The shutdown handler: `handleSignal` (lines 249-265) -/

/-- The method `handleSignal` on receipt of the interrupt: its trace, which
ends the process. -/
def handleSignal (p : Program) : List Effect :=
  (if p.SubProccesPid ≠ 0 then [Effect.Kill p.SubProccesPid Signal.SIGTERM] else [])
    ++ [Effect.Exit 2]

/-! ## Launches and exits of successive children -/

/-- The two writes to `SubProccesPid` made by the goroutines of `handleWrite`:
after a successful `cmd.Start()` (line 177), and after `cmd.Wait()` returns (line 182). -/
inductive PidStep
  | launched (pid : Int)
  | exited (pid : Int)
  deriving DecidableEq, Repr

/-- The daemon together with the children whose goroutine is still in `cmd.Wait()`. -/
structure Supervisor where
  prog : Program
  waiting : List Int
  deriving DecidableEq, Repr

/-- One of the two writes.  An exit can be observed only for a child that has
been launched and not yet waited for. -/
def Supervisor.step (s : Supervisor) : PidStep → Option Supervisor
  | PidStep.launched pid =>
    some { prog := { s.prog with SubProccesPid := pid }, waiting := s.waiting ++ [pid] }
  | PidStep.exited pid =>
    if pid ∈ s.waiting then
      some { prog := launchExit s.prog, waiting := s.waiting.erase pid }
    else none

/-- A sequence of writes from a given state. -/
def Supervisor.steps : Supervisor → List PidStep → Option Supervisor
  | s, [] => some s
  | s, a :: rest =>
    match s.step a with
    | none => none
    | some s1 => s1.steps rest

/-! ### Sample inputs -/

/-- The daemon started in `/w/app` with the default exclusions and the given run flag. -/
def progSample (run : String) : Program :=
  { Name := "app"
    WorkSpace := "/w/app"
    ExcludeDirs := ["/w/app/.git"]
    Watcher := []
    buildCmdStr := "go build -o app *.go"
    SubProccesPid := 0
    SubProccesRunCommand := run
    running := 0 }

/-- A workspace with a nested source directory and a `.git` directory. -/
def fsSample : FileSystem :=
  [("/w", [⟨"a", true⟩, ⟨"main.go", false⟩, ⟨".git", true⟩, ⟨"b", true⟩]),
   ("/w/a", [⟨"x", true⟩]), ("/w/a/x", []),
   ("/w/.git", [⟨"objects", true⟩]), ("/w/.git/objects", []), ("/w/b", [])]

/-- A workspace whose only subdirectory `a` cannot be listed. -/
def fsUnlisted : FileSystem := [("/w", [⟨"a", true⟩])]

/-! # Theorems -/

/-! ### Lemmas on the string functions -/

theorem fieldsGo_spaces (cur sp : List Char) (h : ∀ c ∈ sp, isSpace c = true) :
    fieldsGo cur sp = fieldsGo cur [] := by
  induction sp generalizing cur with
  | nil => rfl
  | cons c cs ih =>
    have hc : isSpace c = true := h c (List.mem_cons_self _ _)
    have hcs : ∀ d ∈ cs, isSpace d = true := fun d hd => h d (List.mem_cons_of_mem _ hd)
    simp only [fieldsGo, hc, if_true]
    rw [ih [] hcs]
    simp [fieldsGo]

theorem fieldsGo_append_spaces (cur l sp : List Char) (h : ∀ c ∈ sp, isSpace c = true) :
    fieldsGo cur (l ++ sp) = fieldsGo cur l := by
  induction l generalizing cur with
  | nil => simpa using fieldsGo_spaces cur sp h
  | cons c cs ih =>
    rw [List.cons_append]
    simp only [fieldsGo]
    rw [ih [], ih (cur ++ [c])]

theorem fieldsGo_dropWhile (p : Char → Bool) (hp : ∀ c, p c = true → isSpace c = true)
    (l : List Char) : fieldsGo [] (l.dropWhile p) = fieldsGo [] l := by
  induction l with
  | nil => rfl
  | cons c cs ih =>
    by_cases hc : p c = true
    · rw [List.dropWhile_cons_of_pos hc, ih]
      simp [fieldsGo, hp c hc]
    · rw [List.dropWhile_cons_of_neg hc]

theorem fieldsGo_trimRight (p : Char → Bool) (hp : ∀ c, p c = true → isSpace c = true)
    (cur l : List Char) :
    fieldsGo cur (l.reverse.dropWhile p).reverse = fieldsGo cur l := by
  have hsplit : l = (l.reverse.dropWhile p).reverse ++ (l.reverse.takeWhile p).reverse := by
    rw [← List.reverse_append, List.takeWhile_append_dropWhile, List.reverse_reverse]
  have hsp : ∀ c ∈ (l.reverse.takeWhile p).reverse, isSpace c = true := by
    intro c hc
    rw [List.mem_reverse] at hc
    exact hp c (List.mem_takeWhile_imp hc)
  conv_rhs => rw [hsplit]
  rw [fieldsGo_append_spaces _ _ _ hsp]

theorem cutset_blank_isSpace (c : Char) (h : (" ".data).contains c = true) :
    isSpace c = true := by
  have : c = ' ' := by simpa using h
  subst this
  decide

theorem Fields_Trim_blank (s : String) : Fields (Trim s " ") = Fields s := by
  unfold Fields Trim trimRight trimLeft
  simp only
  rw [fieldsGo_trimRight _ cutset_blank_isSpace, fieldsGo_dropWhile _ cutset_blank_isSpace]

theorem foldl_append_singleton {α β : Type} (f : α → β) (l : List α) (acc : List β) :
    l.foldl (fun eSlice x => eSlice ++ [f x]) acc = acc ++ l.map f := by
  induction l generalizing acc with
  | nil => simp
  | cons x xs ih => simp [ih]

theorem getExcludeSlice_eq_map (excludes dir : String) :
    getExcludeSlice excludes dir = (Fields excludes).map (fun f => dir ++ sep ++ f) := by
  unfold getExcludeSlice
  simp only
  rw [Fields_Trim_blank, foldl_append_singleton]
  simp

/-! ### Paths as character lists -/

theorem sep_data : sep.data = [Separator] := rfl

theorem child_data (p n : String) : (p ++ sep ++ n).data = p.data ++ Separator :: n.data := by
  simp [String.data_append, sep_data]

theorem child_length (p n : String) : (p ++ sep ++ n).length = p.length + 1 + n.length := by
  rw [String.length, child_data, List.length_append, List.length_cons]
  simp only [String.length]
  omega

theorem isDescendant_iff (e a : String) :
    isDescendant e a = true ↔ ∃ t, a.data = e.data ++ Separator :: t := by
  unfold isDescendant
  rw [List.isPrefixOf_iff_prefix]
  constructor
  · rintro ⟨t, ht⟩
    exact ⟨t, by simpa using ht.symm⟩
  · rintro ⟨t, ht⟩
    exact ⟨t, by simpa using ht.symm⟩

/-! ### The exclusion check -/

theorem isExcluded_eq_true_iff (ExcludeDirs : List String) (dirOrFile : String) :
    isExcluded ExcludeDirs dirOrFile = true ↔ dirOrFile ∈ ExcludeDirs := by
  induction ExcludeDirs with
  | nil => simp [isExcluded]
  | cons e rest ih =>
    by_cases h : dirOrFile = e
    · simp [isExcluded, h]
    · simp [isExcluded, h, ih]

/-! ### Termination of the walk -/

theorem ReadDir_some_mem (fs : FileSystem) (p : String) (es : List FileInfo)
    (h : ReadDir fs p = some es) : (p, es) ∈ fs := by
  unfold ReadDir at h
  induction fs with
  | nil => simp at h
  | cons kv rest ih =>
    obtain ⟨k, v⟩ := kv
    rw [List.lookup_cons] at h
    by_cases hk : p = k
    · subst hk
      simp at h
      subst h
      exact List.mem_cons_self _ _
    · have hb : (p == k) = false := by simpa using hk
      rw [hb] at h
      exact List.mem_cons_of_mem _ (ih h)

/-- Number of listed paths of length at least `n`. -/
theorem countP_longer_lt (fs : FileSystem) (p : String) (es : List FileInfo)
    (h : (p, es) ∈ fs) :
    fs.countP (fun kv => decide (p.length + 1 ≤ kv.1.length))
      < fs.countP (fun kv => decide (p.length ≤ kv.1.length)) := by
  induction fs with
  | nil => simp at h
  | cons kv rest ih =>
    have hmono : rest.countP (fun kv => decide (p.length + 1 ≤ kv.1.length))
        ≤ rest.countP (fun kv => decide (p.length ≤ kv.1.length)) := by
      apply List.countP_mono_left
      intro x _ hx
      simp only [decide_eq_true_eq] at hx ⊢
      omega
    rcases List.mem_cons.mp h with heq | hmem
    · subst heq
      simp [List.countP_cons]
      omega
    · have := ih hmem
      simp only [List.countP_cons]
      by_cases h1 : p.length + 1 ≤ kv.1.length
      · have h2 : p.length ≤ kv.1.length := by omega
        simp [h1, h2]
        omega
      · by_cases h2 : p.length ≤ kv.1.length
        · simp [h1, h2]; omega
        · simp [h1, h2]; omega

theorem watchChildren_some (walk : String → Option (List String)) (p : String)
    (es : List FileInfo)
    (h : ∀ fi ∈ es, fi.IsDir = true → ∃ a, walk (p ++ sep ++ fi.Name) = some a) :
    ∃ out, watchChildren walk p es = some out := by
  induction es with
  | nil => exact ⟨[], rfl⟩
  | cons fi rest ih =>
    obtain ⟨more, hmore⟩ := ih (fun f hf => h f (List.mem_cons_of_mem _ hf))
    by_cases hd : fi.IsDir = true
    · obtain ⟨a, ha⟩ := h fi (List.mem_cons_self _ _) hd
      exact ⟨a ++ more, by simp [watchChildren, hd, ha, hmore]⟩
    · exact ⟨more, by simp [watchChildren, hd, hmore]⟩

theorem watchRecursively_some_of_measure (fs : FileSystem) (excl : List String) :
    ∀ (fuel : Nat) (p : String),
      fs.countP (fun kv => decide (p.length ≤ kv.1.length)) < fuel →
      ∃ adds, watchRecursively fs excl fuel p = some adds := by
  intro fuel
  induction fuel with
  | zero => intro p h; omega
  | succ fuel ih =>
    intro p h
    by_cases hx : isExcluded excl p = true
    · exact ⟨[], by simp [watchRecursively, hx]⟩
    · cases hr : ReadDir fs p with
      | none => exact ⟨[], by simp [watchRecursively, hx, hr]⟩
      | some es =>
        have hlt := countP_longer_lt fs p es (ReadDir_some_mem fs p es hr)
        obtain ⟨out, hout⟩ := watchChildren_some (watchRecursively fs excl fuel) p es (by
          intro fi _ _
          apply ih
          have hle : fs.countP (fun kv => decide ((p ++ sep ++ fi.Name).length ≤ kv.1.length))
              ≤ fs.countP (fun kv => decide (p.length + 1 ≤ kv.1.length)) := by
            apply List.countP_mono_left
            intro x _ hx
            simp only [decide_eq_true_eq, child_length] at hx ⊢
            omega
          omega)
        exact ⟨p :: out, by simp [watchRecursively, hx, hr, hout]⟩

theorem watchRecursively_terminates (fs : FileSystem) (excl : List String) (p : String) :
    ∃ adds, watchRecursively fs excl (fs.length + 1) p = some adds := by
  apply watchRecursively_some_of_measure
  have hle : fs.countP (fun kv => decide (p.length ≤ kv.1.length)) ≤ fs.length :=
    List.countP_le_length _
  omega

/-! ### What the walk adds -/

theorem watchChildren_mem (walk : String → Option (List String)) (p : String)
    (es : List FileInfo) (out : List String) (h : watchChildren walk p es = some out)
    (x : String) :
    x ∈ out ↔ ∃ fi ∈ es, fi.IsDir = true ∧ ∃ a, walk (p ++ sep ++ fi.Name) = some a ∧ x ∈ a := by
  induction es generalizing out with
  | nil =>
    simp [watchChildren] at h
    subst h
    simp
  | cons fi rest ih =>
    by_cases hd : fi.IsDir = true
    · simp only [watchChildren, hd, if_true] at h
      cases hw : walk (p ++ sep ++ fi.Name) with
      | none => simp [hw] at h
      | some a =>
        cases hm : watchChildren walk p rest with
        | none => simp [hw, hm] at h
        | some more =>
          simp only [hw, hm, Option.some.injEq] at h
          subst h
          rw [List.mem_append, ih more hm]
          constructor
          · rintro (hx | ⟨f, hf, hfd, b, hb, hxb⟩)
            · exact ⟨fi, List.mem_cons_self _ _, hd, a, hw, hx⟩
            · exact ⟨f, List.mem_cons_of_mem _ hf, hfd, b, hb, hxb⟩
          · rintro ⟨f, hf, hfd, b, hb, hxb⟩
            rcases List.mem_cons.mp hf with heq | hmem
            · subst heq
              rw [hw] at hb
              cases hb
              exact Or.inl hxb
            · exact Or.inr ⟨f, hmem, hfd, b, hb, hxb⟩
    · simp only [watchChildren, hd] at h
      rw [ih out h]
      constructor
      · rintro ⟨f, hf, hfd, b, hb, hxb⟩
        exact ⟨f, List.mem_cons_of_mem _ hf, hfd, b, hb, hxb⟩
      · rintro ⟨f, hf, hfd, b, hb, hxb⟩
        rcases List.mem_cons.mp hf with heq | hmem
        · subst heq
          exact absurd hfd hd
        · exact ⟨f, hmem, hfd, b, hb, hxb⟩

/-- One unfolding of the walk at a path that is listed and not excluded. -/
theorem watchRecursively_succ_some (fs : FileSystem) (excl : List String) (fuel : Nat)
    (p : String) (adds : List String)
    (h : watchRecursively fs excl (fuel + 1) p = some adds) :
    adds = [] ∧ (p ∈ excl ∨ ReadDir fs p = none) ∨
    (p ∉ excl ∧ ∃ es out, ReadDir fs p = some es ∧
      watchChildren (watchRecursively fs excl fuel) p es = some out ∧ adds = p :: out) := by
  by_cases hx : isExcluded excl p = true
  · simp only [watchRecursively, hx, if_true, Option.some.injEq] at h
    exact Or.inl ⟨h.symm, Or.inl ((isExcluded_eq_true_iff _ _).mp hx)⟩
  · have hx2 : p ∉ excl := fun hm => hx ((isExcluded_eq_true_iff _ _).mpr hm)
    have hx3 : isExcluded excl p = false := by simpa using hx
    cases hr : ReadDir fs p with
    | none =>
      simp [watchRecursively, hx3, hr] at h
      exact Or.inl ⟨h, Or.inr rfl⟩
    | some es =>
      cases hc : watchChildren (watchRecursively fs excl fuel) p es with
      | none => simp [watchRecursively, hx3, hr, hc] at h
      | some out =>
        simp [watchRecursively, hx3, hr, hc] at h
        exact Or.inr ⟨hx2, es, out, rfl, hc, h.symm⟩

/-- If `entry/` is a prefix of `dir/name`, `name` has no separator and `dir` is
not `entry`, then `entry/` is a prefix of `dir`. -/
theorem isDescendant_of_child (e p n : String) (hn : Separator ∉ n.data) (hne : p ≠ e)
    (h : isDescendant e (p ++ sep ++ n) = true) : isDescendant e p = true := by
  rw [isDescendant_iff] at h ⊢
  obtain ⟨t, ht⟩ := h
  rw [child_data] at ht
  rcases List.append_eq_append_iff.mp ht with ⟨a, ha1, ha2⟩ | ⟨c, hc1, hc2⟩
  · -- e.data = p.data ++ a, and Separator :: n.data = a ++ Separator :: t
    cases a with
    | nil =>
      exfalso
      apply hne
      apply String.ext
      simpa using ha1.symm
    | cons x a =>
      exfalso
      simp only [List.cons_append, List.cons.injEq] at ha2
      apply hn
      rw [ha2.2]
      simp
  · cases c with
    | nil =>
      exfalso
      apply hne
      apply String.ext
      simpa using hc1
    | cons x c =>
      simp only [List.cons_append, List.cons.injEq] at hc2
      refine ⟨c, ?_⟩
      rw [hc1, ← hc2.1]

theorem watchRecursively_avoids (fs : FileSystem) (excl : List String)
    (hn : NamesHaveNoSeparator fs) :
    ∀ (fuel : Nat) (p : String) (adds : List String),
      watchRecursively fs excl fuel p = some adds →
      ∀ a ∈ adds, ∀ e ∈ excl, a ≠ e ∧ (isDescendant e a = true → isDescendant e p = true) := by
  intro fuel
  induction fuel with
  | zero => intro p adds h; simp [watchRecursively] at h
  | succ fuel ih =>
    intro p adds h a ha e he
    rcases watchRecursively_succ_some fs excl fuel p adds h with ⟨h0, _⟩ | ⟨hx, es, out, hr, hc, hadds⟩
    · subst h0; simp at ha
    · subst hadds
      rcases List.mem_cons.mp ha with heq | hmem
      · subst heq
        exact ⟨fun h' => hx (h' ▸ he), fun h' => h'⟩
      · obtain ⟨fi, hfi, _, b, hb, hab⟩ := (watchChildren_mem _ p es out hc a).mp hmem
        obtain ⟨h1, h2⟩ := ih _ b hb a hab e he
        refine ⟨h1, fun hd => ?_⟩
        have hsep : Separator ∉ fi.Name.data := hn (p, es) (ReadDir_some_mem fs p es hr) fi hfi
        exact isDescendant_of_child e p fi.Name hsep (fun h' => hx (h' ▸ he)) (h2 hd)

theorem not_isDescendant_longer (e p : String) (h : p.length ≤ e.length) :
    isDescendant e p = false := by
  cases hd : isDescendant e p with
  | false => rfl
  | true =>
    exfalso
    obtain ⟨t, ht⟩ := (isDescendant_iff e p).mp hd
    have := congrArg List.length ht
    simp only [List.length_append, List.length_cons, String.length] at this h
    omega

theorem getExcludeSlice_mem (excludes dir e : String) (h : e ∈ getExcludeSlice excludes dir) :
    ∃ f, e = dir ++ sep ++ f := by
  rw [getExcludeSlice_eq_map] at h
  obtain ⟨f, _, hf⟩ := List.mem_map.mp h
  exact ⟨f, hf.symm⟩

/-! ### Shape of the added paths -/

theorem isDescendant_child (p n : String) : isDescendant p (p ++ sep ++ n) = true :=
  (isDescendant_iff _ _).mpr ⟨n.data, child_data p n⟩

theorem isDescendant_trans (a b c : String) (h1 : isDescendant a b = true)
    (h2 : isDescendant b c = true) : isDescendant a c = true := by
  rw [isDescendant_iff] at h1 h2 ⊢
  obtain ⟨t1, ht1⟩ := h1
  obtain ⟨t2, ht2⟩ := h2
  exact ⟨t1 ++ Separator :: t2, by rw [ht2, ht1]; simp⟩

theorem isDescendant_length (e a : String) (h : isDescendant e a = true) :
    e.length < a.length := by
  by_contra hle
  have := not_isDescendant_longer e a (by omega)
  rw [h] at this
  cases this

theorem watchRecursively_under (fs : FileSystem) (excl : List String) :
    ∀ (fuel : Nat) (p : String) (adds : List String),
      watchRecursively fs excl fuel p = some adds →
      ∀ a ∈ adds, a = p ∨ isDescendant p a = true := by
  intro fuel
  induction fuel with
  | zero => intro p adds h; simp [watchRecursively] at h
  | succ fuel ih =>
    intro p adds h a ha
    rcases watchRecursively_succ_some fs excl fuel p adds h with ⟨h0, _⟩ | ⟨_, es, out, _, hc, hadds⟩
    · subst h0; simp at ha
    · subst hadds
      rcases List.mem_cons.mp ha with heq | hmem
      · exact Or.inl heq
      · obtain ⟨fi, _, _, b, hb, hab⟩ := (watchChildren_mem _ p es out hc a).mp hmem
        right
        rcases ih _ b hb a hab with h1 | h1
        · rw [h1]; exact isDescendant_child p fi.Name
        · exact isDescendant_trans _ _ _ (isDescendant_child p fi.Name) h1

theorem Reachable.trans {fs : FileSystem} {a b c : String} (h1 : Reachable fs a b)
    (h2 : Reachable fs b c) : Reachable fs a c := by
  induction h2 with
  | root => exact h1
  | child dir entries fi _ hr hfi hd ih => exact Reachable.child dir entries fi ih hr hfi hd

theorem watchRecursively_listed (fs : FileSystem) (excl : List String) :
    ∀ (fuel : Nat) (p : String) (adds : List String),
      watchRecursively fs excl fuel p = some adds →
      ∀ a ∈ adds, Reachable fs p a ∧ (ReadDir fs a).isSome = true := by
  intro fuel
  induction fuel with
  | zero => intro p adds h; simp [watchRecursively] at h
  | succ fuel ih =>
    intro p adds h a ha
    rcases watchRecursively_succ_some fs excl fuel p adds h with ⟨h0, _⟩ | ⟨_, es, out, hr, hc, hadds⟩
    · subst h0; simp at ha
    · subst hadds
      rcases List.mem_cons.mp ha with heq | hmem
      · subst heq
        exact ⟨Reachable.root, by simp [hr]⟩
      · obtain ⟨fi, hfi, hd, b, hb, hab⟩ := (watchChildren_mem _ p es out hc a).mp hmem
        obtain ⟨h1, h2⟩ := ih _ b hb a hab
        exact ⟨Reachable.trans (Reachable.child p es fi Reachable.root hr hfi hd) h1, h2⟩

/-! ### Every listed, non-excluded child of an added path is added -/

theorem watchChildren_child (walk : String → Option (List String)) (p : String)
    (es : List FileInfo) (out : List String) (h : watchChildren walk p es = some out)
    (fi : FileInfo) (hfi : fi ∈ es) (hd : fi.IsDir = true) :
    ∃ b, walk (p ++ sep ++ fi.Name) = some b ∧ ∀ x ∈ b, x ∈ out := by
  induction es generalizing out with
  | nil => simp at hfi
  | cons f rest ih =>
    by_cases hfd : f.IsDir = true
    · simp only [watchChildren, hfd, if_true] at h
      cases hw : walk (p ++ sep ++ f.Name) with
      | none => simp [hw] at h
      | some a =>
        cases hm : watchChildren walk p rest with
        | none => simp [hw, hm] at h
        | some more =>
          simp only [hw, hm, Option.some.injEq] at h
          subst h
          rcases List.mem_cons.mp hfi with heq | hmem
          · subst heq
            exact ⟨a, hw, fun x hx => List.mem_append_left _ hx⟩
          · obtain ⟨b, hb, hsub⟩ := ih more hm hmem
            exact ⟨b, hb, fun x hx => List.mem_append_right _ (hsub x hx)⟩
    · simp only [watchChildren, hfd] at h
      rcases List.mem_cons.mp hfi with heq | hmem
      · subst heq
        exact absurd hd hfd
      · exact ih out h hmem

theorem watchRecursively_closed (fs : FileSystem) (excl : List String) :
    ∀ (fuel : Nat) (q : String) (adds : List String),
      watchRecursively fs excl fuel q = some adds →
      ∀ p ∈ adds, ∀ (es : List FileInfo) (fi : FileInfo),
        ReadDir fs p = some es → fi ∈ es → fi.IsDir = true →
        (p ++ sep ++ fi.Name) ∉ excl → (ReadDir fs (p ++ sep ++ fi.Name)).isSome = true →
        (p ++ sep ++ fi.Name) ∈ adds := by
  intro fuel
  induction fuel with
  | zero => intro q adds h; simp [watchRecursively] at h
  | succ fuel ih =>
    intro q adds h p hp es fi hr hfi hd hx hl
    rcases watchRecursively_succ_some fs excl fuel q adds h with ⟨h0, _⟩ | ⟨_, esq, out, hrq, hc, hadds⟩
    · subst h0; simp at hp
    · subst hadds
      apply List.mem_cons_of_mem
      rcases List.mem_cons.mp hp with heq | hmem
      · subst heq
        rw [hrq] at hr
        cases hr
        obtain ⟨b, hb, hsub⟩ := watchChildren_child _ p es out hc fi hfi hd
        apply hsub
        cases fuel with
        | zero => simp [watchRecursively] at hb
        | succ fuel =>
          rcases watchRecursively_succ_some fs excl fuel _ b hb with ⟨_, h1 | h1⟩ | ⟨_, _, out2, _, _, hb2⟩
          · exact absurd h1 hx
          · rw [h1] at hl; simp at hl
          · rw [hb2]; exact List.mem_cons_self _ _
      · obtain ⟨f, _, _, b, hb, hpb⟩ := (watchChildren_mem _ q esq out hc p).mp hmem
        have hin := ih _ b hb p hpb es fi hr hfi hd hx hl
        exact (watchChildren_mem _ q esq out hc _).mpr ⟨f, ‹_›, ‹_›, b, hb, hin⟩

/-! ### No path is added twice -/

theorem name_unique (n1 n2 t1 t2 : List Char) (h : n1 ++ t1 = n2 ++ t2)
    (h1 : Separator ∉ n1) (h2 : Separator ∉ n2)
    (ht1 : t1 = [] ∨ ∃ r, t1 = Separator :: r) (ht2 : t2 = [] ∨ ∃ r, t2 = Separator :: r) :
    n1 = n2 := by
  rcases List.append_eq_append_iff.mp h with ⟨a, ha1, ha2⟩ | ⟨c, hc1, hc2⟩
  · -- n2 = n1 ++ a, t1 = a ++ t2
    cases a with
    | nil => simpa using ha1.symm
    | cons x a =>
      exfalso
      rcases ht1 with h0 | ⟨r, hr⟩
      · rw [h0] at ha2; simp at ha2
      · rw [hr] at ha2
        simp only [List.cons_append, List.cons.injEq] at ha2
        apply h2
        rw [ha1, ← ha2.1]
        simp
  · cases c with
    | nil => simpa using hc1
    | cons x c =>
      exfalso
      rcases ht2 with h0 | ⟨r, hr⟩
      · rw [h0] at hc2; simp at hc2
      · rw [hr] at hc2
        simp only [List.cons_append, List.cons.injEq] at hc2
        apply h1
        rw [hc1, ← hc2.1]
        simp

theorem under_tail (q x : String) (h : x = q ∨ isDescendant q x = true) :
    ∃ t, x.data = q.data ++ t ∧ (t = [] ∨ ∃ r, t = Separator :: r) := by
  rcases h with h | h
  · exact ⟨[], by simp [h], Or.inl rfl⟩
  · obtain ⟨r, hr⟩ := (isDescendant_iff q x).mp h
    exact ⟨Separator :: r, hr, Or.inr ⟨r, rfl⟩⟩

theorem under_child_unique (p n1 n2 x : String)
    (h1 : Separator ∉ n1.data) (h2 : Separator ∉ n2.data)
    (hx1 : x = p ++ sep ++ n1 ∨ isDescendant (p ++ sep ++ n1) x = true)
    (hx2 : x = p ++ sep ++ n2 ∨ isDescendant (p ++ sep ++ n2) x = true) : n1 = n2 := by
  obtain ⟨t1, e1, ht1⟩ := under_tail _ _ hx1
  obtain ⟨t2, e2, ht2⟩ := under_tail _ _ hx2
  rw [child_data] at e1 e2
  rw [e1] at e2
  simp only [List.append_assoc, List.cons_append, List.append_cancel_left_eq,
    List.cons.injEq, true_and] at e2
  exact String.ext (name_unique _ _ _ _ e2 h1 h2 ht1 ht2)

theorem watchChildren_nodup (walk : String → Option (List String)) (p : String)
    (hwalk : ∀ q b, walk q = some b →
      b.Nodup ∧ ∀ x ∈ b, x = q ∨ isDescendant q x = true)
    (es : List FileInfo) (hsep : ∀ fi ∈ es, Separator ∉ fi.Name.data)
    (hnd : (es.map FileInfo.Name).Nodup) (out : List String)
    (h : watchChildren walk p es = some out) : out.Nodup := by
  induction es generalizing out with
  | nil =>
    simp [watchChildren] at h
    subst h
    exact List.nodup_nil
  | cons fi rest ih =>
    rw [List.map_cons, List.nodup_cons] at hnd
    have hsep' : ∀ f ∈ rest, Separator ∉ f.Name.data :=
      fun f hf => hsep f (List.mem_cons_of_mem _ hf)
    by_cases hd : fi.IsDir = true
    · simp only [watchChildren, hd, if_true] at h
      cases hw : walk (p ++ sep ++ fi.Name) with
      | none => simp [hw] at h
      | some a =>
        cases hm : watchChildren walk p rest with
        | none => simp [hw, hm] at h
        | some more =>
          simp only [hw, hm, Option.some.injEq] at h
          subst h
          obtain ⟨hand, haund⟩ := hwalk _ a hw
          rw [List.nodup_append]
          refine ⟨hand, ih hsep' hnd.2 more hm, ?_⟩
          intro x hxa hxm
          obtain ⟨f, hf, _, b, hb, hxb⟩ := (watchChildren_mem walk p rest more hm x).mp hxm
          have hname : fi.Name = f.Name :=
            under_child_unique p fi.Name f.Name x (hsep fi (List.mem_cons_self _ _))
              (hsep' f hf) (haund x hxa) ((hwalk _ b hb).2 x hxb)
          apply hnd.1
          rw [hname]
          exact List.mem_map_of_mem _ hf
    · simp only [watchChildren, hd] at h
      exact ih hsep' hnd.2 out h

theorem watchRecursively_nodup (fs : FileSystem) (excl : List String)
    (hn : NamesHaveNoSeparator fs) (hs : SiblingsDistinct fs) :
    ∀ (fuel : Nat) (p : String) (adds : List String),
      watchRecursively fs excl fuel p = some adds → adds.Nodup := by
  intro fuel
  induction fuel with
  | zero => intro p adds h; simp [watchRecursively] at h
  | succ fuel ih =>
    intro p adds h
    rcases watchRecursively_succ_some fs excl fuel p adds h with ⟨h0, _⟩ | ⟨_, es, out, hr, hc, hadds⟩
    · subst h0; exact List.nodup_nil
    · subst hadds
      have hmem := ReadDir_some_mem fs p es hr
      rw [List.nodup_cons]
      constructor
      · intro hp
        obtain ⟨fi, _, _, b, hb, hpb⟩ := (watchChildren_mem _ p es out hc p).mp hp
        have hlen : (p ++ sep ++ fi.Name).length ≤ p.length := by
          rcases watchRecursively_under fs excl fuel _ b hb p hpb with h1 | h1
          · rw [← h1]
          · exact Nat.le_of_lt (isDescendant_length _ _ h1)
        rw [child_length] at hlen
        omega
      · exact watchChildren_nodup _ p
          (fun q b hb => ⟨ih q b hb, watchRecursively_under fs excl fuel q b hb⟩)
          es (hn (p, es) hmem) (hs (p, es) hmem) out hc

/-! ### Registering the same paths again -/

theorem mem_Watcher_Add (w : Watcher) (name x : String) :
    x ∈ Watcher.Add w name ↔ x ∈ w ∨ x = name := by
  unfold Watcher.Add
  by_cases h : name ∈ w
  · simp only [h, if_true]
    constructor
    · exact Or.inl
    · rintro (h1 | h1)
      · exact h1
      · rw [h1]; exact h
  · simp [h]

theorem mem_registerAll (w : Watcher) (calls : List String) (x : String) :
    x ∈ registerAll w calls ↔ x ∈ w ∨ x ∈ calls := by
  unfold registerAll
  induction calls generalizing w with
  | nil => simp
  | cons c cs ih =>
    rw [List.foldl_cons, ih, mem_Watcher_Add]
    simp only [List.mem_cons]
    tauto

theorem registerAll_of_subset (w : Watcher) (calls : List String) (h : ∀ x ∈ calls, x ∈ w) :
    registerAll w calls = w := by
  unfold registerAll
  induction calls generalizing w with
  | nil => rfl
  | cons c cs ih =>
    have hc : c ∈ w := h c (List.mem_cons_self _ _)
    rw [List.foldl_cons]
    have : Watcher.Add w c = w := by simp [Watcher.Add, hc]
    rw [this]
    exact ih w (fun x hx => h x (List.mem_cons_of_mem _ hx))

theorem registerAll_twice (w : Watcher) (calls : List String) :
    registerAll (registerAll w calls) calls = registerAll w calls :=
  registerAll_of_subset _ _ (fun x hx => (mem_registerAll w calls x).mpr (Or.inr hx))

/-! ## Claims on `getExcludeSlice` and the watch registry -/

theorem Fields_of_all_space (s : String) (h : s.data.all isSpace = true) : Fields s = [] := by
  unfold Fields
  rw [fieldsGo_spaces [] s.data (by simpa using h)]
  rfl

/-- C10: `getExcludeSlice excludes dir` is the list of whitespace-separated
fields of `excludes`, in order, each prefixed with `dir` and the separator; it
has as many entries as there are fields, every entry starts with `dir` and the
separator, and a string of spaces only (the empty string included) gives the
empty list. -/
theorem getExcludeSlice_fields (excludes dir : String) :
    getExcludeSlice excludes dir = (Fields excludes).map (fun f => dir ++ sep ++ f)
    ∧ (getExcludeSlice excludes dir).length = (Fields excludes).length
    ∧ (∀ e ∈ getExcludeSlice excludes dir, (dir ++ sep).data <+: e.data)
    ∧ (excludes.data.all isSpace = true → getExcludeSlice excludes dir = []) := by
  refine ⟨getExcludeSlice_eq_map excludes dir, ?_, ?_, ?_⟩
  · rw [getExcludeSlice_eq_map, List.length_map]
  · intro e he
    obtain ⟨f, hf⟩ := getExcludeSlice_mem excludes dir e he
    rw [hf, String.data_append]
    exact List.prefix_append _ _
  · intro h
    rw [getExcludeSlice_eq_map, Fields_of_all_space excludes h]
    rfl

/-- Witness for C10 at a string with leading, doubled and trailing blanks and
at a string of blanks only. -/
theorem getExcludeSlice_fields_witness :
    getExcludeSlice "  .git  vendor\tnode_modules " "/w"
        = ["/w/.git", "/w/vendor", "/w/node_modules"]
    ∧ (" \t ".data.all isSpace = true ∧ getExcludeSlice " \t " "/w" = []) :=
  ⟨(getExcludeSlice_fields "  .git  vendor\tnode_modules " "/w").1.trans (by decide),
   by decide, (getExcludeSlice_fields " \t " "/w").2.2.2 (by decide)⟩

/-- C2, as stated, fails: `/w/.git/objects` lies under the exclusion entry
`/w/.git`, and the check at the head of `watchRecursively` does not hold for it. -/
theorem isExcluded_descendant_counterexample :
    "/w/.git" ∈ getExcludeSlice ".git" "/w"
    ∧ isDescendant "/w/.git" "/w/.git/objects" = true
    ∧ isExcluded (getExcludeSlice ".git" "/w") "/w/.git/objects" = false := by
  decide

/-- C2, amended: the check at the head of `watchRecursively` holds for a path
if and only if the path is equal to some entry of `ExcludeDirs`. -/
theorem isExcluded_iff_exact (ExcludeDirs : List String) (dirOrFile : String) :
    isExcluded ExcludeDirs dirOrFile = true ↔ ∃ e ∈ ExcludeDirs, dirOrFile = e := by
  rw [isExcluded_eq_true_iff]
  constructor
  · intro h; exact ⟨dirOrFile, h, rfl⟩
  · rintro ⟨e, he, rfl⟩; exact he

/-- C3: with the exclusion list built by `getExcludeSlice` for the workspace
root, the walk from the root returns, and no path it passes to `Watcher.Add`
is an exclusion entry or lies under one. -/
theorem watchRecursively_prunes_excluded (fs : FileSystem) (excludes root : String)
    (hn : NamesHaveNoSeparator fs) :
    ∃ adds, watchRecursively fs (getExcludeSlice excludes root) (fs.length + 1) root = some adds
      ∧ ∀ a ∈ adds, ∀ e ∈ getExcludeSlice excludes root,
          a ≠ e ∧ isDescendant e a = false := by
  obtain ⟨adds, hadds⟩ := watchRecursively_terminates fs (getExcludeSlice excludes root) root
  refine ⟨adds, hadds, ?_⟩
  intro a ha e he
  obtain ⟨h1, h2⟩ := watchRecursively_avoids fs _ hn _ root adds hadds a ha e he
  refine ⟨h1, ?_⟩
  cases hd : isDescendant e a with
  | false => rfl
  | true =>
    obtain ⟨f, hf⟩ := getExcludeSlice_mem excludes root e he
    have hlen : root.length ≤ e.length := by rw [hf, child_length]; omega
    have := not_isDescendant_longer e root hlen
    rw [h2 hd] at this
    cases this

/-- Witness for C3 on the sample workspace with `.git` excluded. -/
theorem watchRecursively_prunes_excluded_witness :
    NamesHaveNoSeparator fsSample ∧
    ∃ adds, watchRecursively fsSample (getExcludeSlice ".git" "/w") (fsSample.length + 1) "/w"
        = some adds
      ∧ ∀ a ∈ adds, ∀ e ∈ getExcludeSlice ".git" "/w", a ≠ e ∧ isDescendant e a = false :=
  ⟨by unfold NamesHaveNoSeparator; decide,
   watchRecursively_prunes_excluded fsSample ".git" "/w" (by unfold NamesHaveNoSeparator; decide)⟩

/-- C4, as stated, fails: in `fsUnlisted` the directory `/w/a` is reachable
from the listable, non-excluded root `/w` and is not excluded, yet the walk
never passes it to `Watcher.Add`, because listing it fails. -/
theorem watchRecursively_unlisted_counterexample :
    NamesHaveNoSeparator fsUnlisted ∧ SiblingsDistinct fsUnlisted
    ∧ (ReadDir fsUnlisted "/w").isSome = true ∧ NotExcluded [] "/w"
    ∧ Reachable fsUnlisted "/w" "/w/a" ∧ NotExcluded [] "/w/a"
    ∧ watchRecursively fsUnlisted [] (fsUnlisted.length + 1) "/w" = some ["/w"]
    ∧ List.count "/w/a" ["/w"] = 0 := by
  refine ⟨by unfold NamesHaveNoSeparator; decide, by unfold SiblingsDistinct; decide,
    by decide, by unfold NotExcluded; decide, ?_, by unfold NotExcluded; decide,
    by decide, by decide⟩
  exact Reachable.child "/w" [⟨"a", true⟩] ⟨"a", true⟩ Reachable.root (by decide)
    (by decide) rfl

/-- C4, amended: on a tree whose names hold no separator and whose sibling
names are distinct, the walk from a non-excluded root returns; the paths it
passes to `Watcher.Add` are exactly the directories that are reachable from the
root, whose listing succeeds, and that neither are an exclusion entry nor lie
under one; each of them is passed exactly once; and a second walk leaves the
notifier's registration set unchanged. -/
theorem watchRecursively_registers (fs : FileSystem) (ExcludeDirs : List String)
    (root : String) (hn : NamesHaveNoSeparator fs) (hs : SiblingsDistinct fs)
    (hroot : NotExcluded ExcludeDirs root) :
    ∃ adds, watchRecursively fs ExcludeDirs (fs.length + 1) root = some adds
      ∧ (∀ d, d ∈ adds ↔
          (Reachable fs root d ∧ (ReadDir fs d).isSome = true ∧ NotExcluded ExcludeDirs d))
      ∧ (∀ d ∈ adds, adds.count d = 1)
      ∧ ∀ w : Watcher, registerAll (registerAll w adds) adds = registerAll w adds := by
  obtain ⟨adds, hadds⟩ := watchRecursively_terminates fs ExcludeDirs root
  have hnd := watchRecursively_nodup fs ExcludeDirs hn hs _ root adds hadds
  refine ⟨adds, hadds, ?_, fun d hd => List.count_eq_one_of_mem hnd hd,
    fun w => registerAll_twice w adds⟩
  intro d
  constructor
  · intro hd
    obtain ⟨h1, h2⟩ := watchRecursively_listed fs ExcludeDirs _ root adds hadds d hd
    refine ⟨h1, h2, fun hmem => ?_, fun e he => ?_⟩
    · exact (watchRecursively_avoids fs ExcludeDirs hn _ root adds hadds d hd d hmem).1 rfl
    · cases hde : isDescendant e d with
      | false => rfl
      | true =>
        have := (watchRecursively_avoids fs ExcludeDirs hn _ root adds hadds d hd e he).2 hde
        rw [hroot.2 e he] at this
        cases this
  · rintro ⟨hreach, hlist, hnot⟩
    induction hreach with
    | root =>
      rcases watchRecursively_succ_some fs ExcludeDirs _ root adds hadds with
        ⟨_, h1 | h1⟩ | ⟨_, _, out, _, _, h2⟩
      · exact absurd h1 hnot.1
      · rw [h1] at hlist; simp at hlist
      · rw [h2]; exact List.mem_cons_self _ _
    | child dir entries fi _ hr hfi hdir ih =>
      have hdirIn : dir ∈ adds := by
        apply ih (by simp [hr])
        constructor
        · intro hmem
          have := hnot.2 dir hmem
          rw [isDescendant_child] at this
          cases this
        · intro e he
          cases hde : isDescendant e dir with
          | false => rfl
          | true =>
            have := hnot.2 e he
            rw [isDescendant_trans e dir _ hde (isDescendant_child dir fi.Name)] at this
            cases this
      exact watchRecursively_closed fs ExcludeDirs _ root adds hadds dir hdirIn entries fi
        hr hfi hdir hnot.1 hlist

/-- Witness for C4 on the sample workspace with `/w/.git` excluded. -/
theorem watchRecursively_registers_witness :
    (NamesHaveNoSeparator fsSample ∧ SiblingsDistinct fsSample ∧ NotExcluded ["/w/.git"] "/w")
    ∧ ∃ adds, watchRecursively fsSample ["/w/.git"] (fsSample.length + 1) "/w" = some adds
      ∧ (∀ d, d ∈ adds ↔
          (Reachable fsSample "/w" d ∧ (ReadDir fsSample d).isSome = true
            ∧ NotExcluded ["/w/.git"] d))
      ∧ (∀ d ∈ adds, adds.count d = 1)
      ∧ ∀ w : Watcher, registerAll (registerAll w adds) adds = registerAll w adds :=
  ⟨⟨by unfold NamesHaveNoSeparator; decide, by unfold SiblingsDistinct; decide,
      by unfold NotExcluded; decide⟩,
   watchRecursively_registers fsSample ["/w/.git"] "/w"
    (by unfold NamesHaveNoSeparator; decide) (by unfold SiblingsDistinct; decide)
    (by unfold NotExcluded; decide)⟩

/-! ## Claims on the rebuild pipeline, the router and the shutdown handler -/

theorem send_of_empty (p : Program) (h : p.running = 0) :
    send p = some { p with running := 1 } := by
  simp [send, runningCap, h]

theorem recv_of_empty (p : Program) (h : p.running = 0) : recv p = none := by
  simp [recv, h]

theorem handleWrite_of_other (run : String) (p : Program) (file : String)
    (hfile : HasSuffix file ".go" = false) (hslot : p.running = 0) :
    handleWrite run p file = some ({ p with running := 1 }, [Effect.Send]) := by
  simp [handleWrite, hfile, send_of_empty p hslot]

theorem handleEvent_of_other (run : String) (fs : FileSystem) (p : Program) (file : String)
    (started : Option Int) (hfile : HasSuffix file ".go" = false) (hslot : p.running = 0) :
    handleEvent run fs p ⟨file, Op.Write⟩ started = some (p, [Effect.Send]) := by
  have hp : ({ p with running := 0 } : Program) = p := by
    cases p; simp at hslot; simp [hslot]
  simp [handleEvent, handleWrite_of_other run p file hfile hslot, recv, hp]

theorem handleWrite_of_source (run : String) (p : Program) (file : String)
    (hfile : HasSuffix file ".go" = true) :
    handleWrite run p file =
      some (p,
        (if p.SubProccesPid ≠ 0 then [Effect.Kill (-p.SubProccesPid) Signal.SIGTERM] else [])
          ++ [Effect.CombinedOutput p.buildCmdStr]
          ++ (if run ≠ "" then [Effect.Go p.SubProccesRunCommand] else [])) := by
  unfold handleWrite
  by_cases hrun : run = "" <;> simp [hfile, hrun]

theorem recv_running (p q : Program) (h : recv p = some q) : q.running = p.running - 1 := by
  unfold recv at h
  split at h
  · simp only [Option.some.injEq] at h
    rw [← h]
  · cases h

theorem launchStart_running (p q : Program) (started : Option Int) (t : List Effect)
    (h : launchStart p started = some (q, t)) (hslot : p.running = 0) : q.running ≤ 1 := by
  cases started with
  | none =>
    simp only [launchStart, Option.some.injEq, Prod.mk.injEq] at h
    rw [← h.1, hslot]; omega
  | some pid =>
    have hs : send { p with SubProccesPid := pid }
        = some { p with SubProccesPid := pid, running := 1 } := by
      simp [send, runningCap, hslot]
    simp only [launchStart, hs, Option.some.injEq, Prod.mk.injEq] at h
    rw [← h.1]

theorem ite_eq_some_cases {α : Type} (c : Prop) [Decidable c] (a b : Option α) (x : α)
    (h : (if c then a else b) = some x) : a = some x ∨ b = some x := by
  split at h
  · exact Or.inl h
  · exact Or.inr h

/-- The router starts and ends every round with the channel empty. -/
theorem handleEvent_slot_empty (run : String) (fs : FileSystem) (p p1 : Program)
    (event : Event) (started : Option Int) (t : List Effect)
    (h : handleEvent run fs p event started = some (p1, t)) (hslot : p.running = 0) :
    p1.running = 0 := by
  obtain ⟨name, op⟩ := event
  cases op with
  | Create =>
    simp only [handleEvent] at h
    split at h
    · cases h
    · simp only [Option.some.injEq, Prod.mk.injEq] at h
      rw [← h.1]; exact hslot
  | Remove =>
    simp only [handleEvent, Option.some.injEq, Prod.mk.injEq] at h
    rw [← h.1]; exact hslot
  | Other =>
    simp only [handleEvent, Option.some.injEq, Prod.mk.injEq] at h
    rw [← h.1]; exact hslot
  | Write =>
    cases hfile : HasSuffix name ".go" with
    | false =>
      rw [handleEvent_of_other run fs p name started hfile hslot] at h
      simp only [Option.some.injEq, Prod.mk.injEq] at h
      rw [← h.1]; exact hslot
    | true =>
      simp only [handleEvent, handleWrite_of_source run p name hfile] at h
      split at h
      · cases h
      · rename_i pb tb hl
        split at h
        · cases h
        · rename_i pc hr
          simp only [Option.some.injEq, Prod.mk.injEq] at h
          rw [← h.1, recv_running pb pc hr]
          have hle : pb.running ≤ 1 := by
            rcases ite_eq_some_cases _ _ _ _ hl with hl1 | hl1
            · exact launchStart_running p pb started tb hl1 hslot
            · simp only [Option.some.injEq, Prod.mk.injEq] at hl1
              rw [← hl1.1, hslot]; omega
          omega

theorem New_running (dir excludes run : String) (gomodExists : Bool) (p : Program)
    (h : New dir gomodExists excludes run = some p) :
    p.running = 0 ∧ p.SubProccesPid = 0 ∧ p.SubProccesRunCommand = run := by
  unfold New at h
  split at h
  · simp only [Option.some.injEq] at h
    rw [← h]
    exact ⟨rfl, rfl, rfl⟩
  · cases h

/-- Every state the router reaches from one with the channel empty has the
channel empty. -/
theorem handleEvents_slot_empty (run : String) (fs : FileSystem)
    (events : List (Event × Option Int)) (p p1 : Program) (t : List Effect)
    (h : handleEvents run fs p events = some (p1, t)) (hslot : p.running = 0) :
    p1.running = 0 := by
  induction events generalizing p p1 t with
  | nil =>
    simp only [handleEvents, Option.some.injEq, Prod.mk.injEq] at h
    rw [← h.1]; exact hslot
  | cons ev rest ih =>
    obtain ⟨event, started⟩ := ev
    simp only [handleEvents] at h
    split at h
    · cases h
    · rename_i pa ta ha
      split at h
      · cases h
      · rename_i pb tb hb
        simp only [Option.some.injEq, Prod.mk.injEq] at h
        rw [← h.1]
        exact ih pa pb tb hb (handleEvent_slot_empty run fs p pa event started ta ha hslot)

theorem handleEvents_of_other (run : String) (fs : FileSystem) (p : Program)
    (events : List (Event × Option Int))
    (hev : ∀ ev ∈ events, ev.1.Op = Op.Write ∧ HasSuffix ev.1.Name ".go" = false)
    (hslot : p.running = 0) :
    handleEvents run fs p events = some (p, List.replicate events.length Effect.Send) := by
  induction events with
  | nil => rfl
  | cons ev rest ih =>
    obtain ⟨⟨name, op⟩, started⟩ := ev
    obtain ⟨hop, hname⟩ := hev _ (List.mem_cons_self _ _)
    simp only at hop hname
    subst hop
    simp only [handleEvents, handleEvent_of_other run fs p name started hname hslot,
      ih (fun e he => hev e (List.mem_cons_of_mem _ he))]
    rfl

/-- C5: on a path without the suffix `.go`, with the channel empty as it is
whenever the router calls it, `handleWrite` sends on `p.running` exactly once
and does nothing else: its trace is the single send (no kill, no build, no
start of a run process) and the state changes only by the value now held by
the channel, so `SubProccesPid` is unchanged.  The router then receives that
value and is back in the state it started from; hence any sequence of Write
events on such paths is processed to the end, with one send per event. -/
theorem handleWrite_non_source (run : String) (fs : FileSystem) (p : Program)
    (file : String) (hfile : HasSuffix file ".go" = false) (hslot : p.running = 0) :
    handleWrite run p file = some ({ p with running := 1 }, [Effect.Send])
    ∧ (∀ started, handleEvent run fs p ⟨file, Op.Write⟩ started = some (p, [Effect.Send]))
    ∧ ∀ events : List (Event × Option Int),
        (∀ ev ∈ events, ev.1.Op = Op.Write ∧ HasSuffix ev.1.Name ".go" = false) →
        handleEvents run fs p events
          = some (p, List.replicate events.length Effect.Send) :=
  ⟨handleWrite_of_other run p file hfile hslot,
   fun started => handleEvent_of_other run fs p file started hfile hslot,
   fun events hev => handleEvents_of_other run fs p events hev hslot⟩

/-- Witness for C5: three writes to non-source files while child 101 runs. -/
theorem handleWrite_non_source_witness :
    (HasSuffix "README.md" ".go" = false
      ∧ ({ progSample "./app" with SubProccesPid := 101 } : Program).running = 0)
    ∧ handleEvents "./app" fsSample { progSample "./app" with SubProccesPid := 101 }
        [(⟨"README.md", Op.Write⟩, none), (⟨"go.mod", Op.Write⟩, none),
         (⟨"notes.gox", Op.Write⟩, none)]
      = some ({ progSample "./app" with SubProccesPid := 101 },
          [Effect.Send, Effect.Send, Effect.Send]) :=
  ⟨⟨by decide, rfl⟩,
   (handleWrite_non_source "./app" fsSample { progSample "./app" with SubProccesPid := 101 }
      "README.md" (by decide) rfl).2.2 _ (by decide)⟩

/-- C6: on a path with the suffix `.go`, `handleWrite` returns, and its trace
is, in order: when `SubProccesPid` is a non-zero `pid`, the signal `SIGTERM` to
`-pid`, the process group led by `pid`; then the build command; then, when a
run command is configured, the start of the launch goroutine.  When
`SubProccesPid` is zero the trace holds no signal and starts with the build. -/
theorem handleWrite_kills_before_build (run : String) (p : Program) (file : String)
    (hfile : HasSuffix file ".go" = true) :
    ∃ rest, (∀ e ∈ rest, e = Effect.Go p.SubProccesRunCommand)
      ∧ (p.SubProccesPid ≠ 0 →
          handleWrite run p file = some (p,
            Effect.Kill (-p.SubProccesPid) Signal.SIGTERM
              :: Effect.CombinedOutput p.buildCmdStr :: rest))
      ∧ (p.SubProccesPid = 0 →
          handleWrite run p file = some (p, Effect.CombinedOutput p.buildCmdStr :: rest)) := by
  refine ⟨if run ≠ "" then [Effect.Go p.SubProccesRunCommand] else [], ?_, ?_, ?_⟩
  · intro e he
    split at he
    · simpa using he
    · simp at he
  · intro hpid
    rw [handleWrite_of_source run p file hfile]
    simp [hpid]
  · intro hpid
    rw [handleWrite_of_source run p file hfile]
    simp [hpid]

/-- Witness for C6: a write to `main.go` while child 101 is supervised. -/
theorem handleWrite_kills_before_build_witness :
    HasSuffix "main.go" ".go" = true
    ∧ ∃ rest, (∀ e ∈ rest, e = Effect.Go "./app")
      ∧ ((101 : Int) ≠ 0 →
          handleWrite "./app" { progSample "./app" with SubProccesPid := 101 } "main.go"
            = some ({ progSample "./app" with SubProccesPid := 101 },
                Effect.Kill (-101) Signal.SIGTERM
                  :: Effect.CombinedOutput "go build -o app *.go" :: rest))
      ∧ ((101 : Int) = 0 →
          handleWrite "./app" { progSample "./app" with SubProccesPid := 101 } "main.go"
            = some ({ progSample "./app" with SubProccesPid := 101 },
                Effect.CombinedOutput "go build -o app *.go" :: rest)) :=
  ⟨by decide, handleWrite_kills_before_build "./app"
    { progSample "./app" with SubProccesPid := 101 } "main.go" (by decide)⟩

/-! ### Rounds of the router that never finish -/

/-- With no run command, a write to a source file leaves the channel empty and
the router waits on it for ever. -/
theorem handleEvent_blocks_without_run (fs : FileSystem) (p : Program) (file : String)
    (started : Option Int) (hfile : HasSuffix file ".go" = true) (hslot : p.running = 0) :
    handleEvent "" fs p ⟨file, Op.Write⟩ started = none := by
  simp [handleEvent, handleWrite_of_source "" p file hfile, recv_of_empty p hslot]

/-- When `cmd.Start()` fails, the goroutine returns without sending and the
router waits on the channel for ever. -/
theorem handleEvent_blocks_on_start_error (run : String) (fs : FileSystem) (p : Program)
    (file : String) (hfile : HasSuffix file ".go" = true) (hslot : p.running = 0) :
    handleEvent run fs p ⟨file, Op.Write⟩ none = none := by
  simp only [handleEvent, handleWrite_of_source run p file hfile]
  split
  · rfl
  · rename_i pb tb hl
    have hpb : pb = p := by
      rcases ite_eq_some_cases _ _ _ _ hl with h1 | h1
      · simp only [launchStart, Option.some.injEq, Prod.mk.injEq] at h1
        exact h1.1.symm
      · simp only [Option.some.injEq, Prod.mk.injEq] at h1
        exact h1.1.symm
    rw [hpb, recv_of_empty p hslot]

/-- C1 fails on the code: with no run command configured, `handleWrite` on
`main.go` builds and returns without sending on `p.running`, and the round of
the router that called it never finishes, whatever `cmd.Start()` would do. -/
theorem handleWrite_without_run_no_send :
    HasSuffix "main.go" ".go" = true
    ∧ handleWrite "" (progSample "") "main.go"
        = some (progSample "", [Effect.CombinedOutput "go build -o app *.go"])
    ∧ handleEvent "" fsSample (progSample "") ⟨"main.go", Op.Write⟩ none = none
    ∧ handleEvent "" fsSample (progSample "") ⟨"main.go", Op.Write⟩ (some 101) = none := by
  decide

/-- C9 fails on the code: with a run command configured and `cmd.Start()`
failing, the goroutine ends without sending on `p.running` and without
setting `SubProccesPid`, and the round of the router never finishes; a
successful start, by contrast, releases the router. -/
theorem launchStart_error_no_send :
    launchStart (progSample "./app") none
        = some (progSample "./app", [Effect.Start "./app"])
    ∧ handleEvent "./app" fsSample (progSample "./app") ⟨"main.go", Op.Write⟩ none = none
    ∧ handleEvent "./app" fsSample (progSample "./app") ⟨"main.go", Op.Write⟩ (some 101)
        = some ({ progSample "./app" with SubProccesPid := 101 },
            [Effect.CombinedOutput "go build -o app *.go", Effect.Go "./app",
             Effect.Start "./app", Effect.Send]) := by
  decide

/-- C7 fails on the code: with `SubProccesPid = 1234`, `handleSignal` signals
the single process `1234` and exits with code 2; it never signals `-1234`, the
process group that `handleWrite` signals from the same state.  With no child
it only exits with code 2. -/
theorem handleSignal_kills_single_process :
    handleSignal { progSample "./app" with SubProccesPid := 1234 }
        = [Effect.Kill 1234 Signal.SIGTERM, Effect.Exit 2]
    ∧ Effect.Kill (-1234) Signal.SIGTERM
        ∉ handleSignal { progSample "./app" with SubProccesPid := 1234 }
    ∧ handleWrite "./app" { progSample "./app" with SubProccesPid := 1234 } "main.go"
        = some ({ progSample "./app" with SubProccesPid := 1234 },
            [Effect.Kill (-1234) Signal.SIGTERM,
             Effect.CombinedOutput "go build -o app *.go", Effect.Go "./app"])
    ∧ handleSignal (progSample "./app") = [Effect.Exit 2] := by
  decide

/-- C8 fails on the code: child 101 is launched, then child 102, then the exit
of 101 is observed; `SubProccesPid` is then 0 although 102 is still running.
The two launches are those of two successive rounds of the router. -/
theorem launchExit_clears_newer_child :
    (Supervisor.steps ⟨progSample "./app", []⟩
        [PidStep.launched 101, PidStep.launched 102, PidStep.exited 101]).map
          (fun s => (s.prog.SubProccesPid, s.waiting)) = some (0, [102])
    ∧ (handleEvents "./app" fsSample (progSample "./app")
        [(⟨"main.go", Op.Write⟩, some 101), (⟨"main.go", Op.Write⟩, some 102)]).map
          (fun r => (r.1.SubProccesPid, (launchExit r.1).SubProccesPid)) = some (102, 0) := by
  decide

end Goreload
